import Mathlib

/-!
Verification development for the HashHound image traversal and
hash-matching engine (`src/core/image_search.py`, `src/core/models.py`).

The Python source is shallowly embedded: the `pytsk3` collaborator surface
(disk image, volume/partition table, filesystem, directory entries, file
objects) becomes explicit data; exceptions become `Option`; the recursive
generator `walk_fs` becomes a fuel-indexed list-producing function (the
source has no recursion guard, as its own specification notes, so every
theorem below quantifies over the fuel); `hashlib.sha256(..).hexdigest()`
is embedded as the FIPS 180-4 SHA-256 algorithm over byte lists with
hexadecimal output; `time.time()` becomes an abstract sequence of clock
readings consumed in call order.
-/

namespace HashHound

/-! ## SHA-256 (the `hashlib.sha256(data).hexdigest()` call, FIPS 180-4) -/

/-- 2^32, the word modulus of SHA-256. -/
def M32 : Nat := 4294967296

/-- Addition modulo 2^32. -/
def add32 (a b : Nat) : Nat := (a + b) % M32

/-- Right rotation of a 32-bit word by `k` bits. -/
def ror32 (x k : Nat) : Nat :=
  (((x % M32) >>> k) ||| ((x <<< (32 - k)) % M32)) % M32

/-- Bitwise complement within 32 bits. -/
def not32 (x : Nat) : Nat := Nat.xor (x % M32) (M32 - 1)

/-- The 64 SHA-256 round constants (FIPS 180-4 §4.2.2, in decimal). -/
def K256 : List Nat :=
  [1116352408, 1899447441, 3049323471, 3921009573, 961987163, 1508970993,
   2453635748, 2870763221, 3624381080, 310598401, 607225278, 1426881987,
   1925078388, 2162078206, 2614888103, 3248222580, 3835390401, 4022224774,
   264347078, 604807628, 770255983, 1249150122, 1555081692, 1996064986,
   2554220882, 2821834349, 2952996808, 3210313671, 3336571891, 3584528711,
   113926993, 338241895, 666307205, 773529912, 1294757372, 1396182291,
   1695183700, 1986661051, 2177026350, 2456956037, 2730485921, 2820302411,
   3259730800, 3345764771, 3516065817, 3600352804, 4094571909, 275423344,
   430227734, 506948616, 659060556, 883997877, 958139571, 1322822218,
   1537002063, 1747873779, 1955562222, 2024104815, 2227730452, 2361852424,
   2428436474, 2756734187, 3204031479, 3329325298]

/-- The SHA-256 working state: eight 32-bit words. -/
structure Hash8 where
  a : Nat
  b : Nat
  c : Nat
  d : Nat
  e : Nat
  f : Nat
  g : Nat
  h : Nat
deriving DecidableEq

/-- Initial SHA-256 hash value (FIPS 180-4 §5.3.3, in decimal). -/
def initH : Hash8 :=
  ⟨1779033703, 3144134277, 1013904242, 2773480762,
   1359893119, 2600822924, 528734635, 1541459225⟩

/-- One SHA-256 compression round. -/
def shaRound (st : Hash8) (kw : Nat × Nat) : Hash8 :=
  let S1 := Nat.xor (ror32 st.e 6) (Nat.xor (ror32 st.e 11) (ror32 st.e 25))
  let ch := Nat.xor (Nat.land st.e st.f) (Nat.land (not32 st.e) st.g)
  let temp1 := add32 st.h (add32 S1 (add32 ch (add32 kw.1 kw.2)))
  let S0 := Nat.xor (ror32 st.a 2) (Nat.xor (ror32 st.a 13) (ror32 st.a 22))
  let maj := Nat.xor (Nat.land st.a st.b) (Nat.xor (Nat.land st.a st.c) (Nat.land st.b st.c))
  let temp2 := add32 S0 maj
  ⟨add32 temp1 temp2, st.a, st.b, st.c, add32 st.d temp1, st.e, st.f, st.g⟩

/-- Small sigma 0 of the message schedule. -/
def ssig0 (w : Nat) : Nat := Nat.xor (ror32 w 7) (Nat.xor (ror32 w 18) ((w % M32) >>> 3))

/-- Small sigma 1 of the message schedule. -/
def ssig1 (w : Nat) : Nat := Nat.xor (ror32 w 17) (Nat.xor (ror32 w 19) ((w % M32) >>> 10))

/-- Append one extended message-schedule word. -/
def nextW (ws : List Nat) : Nat :=
  let i := ws.length
  add32 (add32 (ws.getD (i - 16) 0) (ssig0 (ws.getD (i - 15) 0)))
        (add32 (ws.getD (i - 7) 0) (ssig1 (ws.getD (i - 2) 0)))

/-- Extend the 16 chunk words by `n` schedule words. -/
def extendW (ws : List Nat) : Nat → List Nat
  | 0 => ws
  | n + 1 => extendW (ws ++ [nextW ws]) n

/-- Big-endian 32-bit words from a byte list. -/
def toWords : List Nat → List Nat
  | b0 :: b1 :: b2 :: b3 :: rest => (((b0 * 256 + b1) * 256 + b2) * 256 + b3) :: toWords rest
  | _ => []

/-- Split a byte list into 64-byte chunks; the first argument is a
recursion bound instantiated with the list length (so the recursion is
structural and kernel-reducible). -/
def chunks64Aux : Nat → List Nat → List (List Nat)
  | _, [] => []
  | 0, _ :: _ => []
  | n + 1, l => l.take 64 :: chunks64Aux n (l.drop 64)

/-- Split a byte list into 64-byte chunks. -/
def chunks64 (l : List Nat) : List (List Nat) := chunks64Aux l.length l

/-- Componentwise addition modulo 2^32 of two hash states. -/
def addH (x y : Hash8) : Hash8 :=
  ⟨add32 x.a y.a, add32 x.b y.b, add32 x.c y.c, add32 x.d y.d,
   add32 x.e y.e, add32 x.f y.f, add32 x.g y.g, add32 x.h y.h⟩

/-- Compress one 64-byte chunk into the running hash state. -/
def compressChunk (st : Hash8) (chunk : List Nat) : Hash8 :=
  let ws := extendW (toWords chunk) 48
  addH st ((K256.zip ws).foldl shaRound st)

/-- Big-endian 8-byte encoding of a natural number. -/
def bigEndian8 (n : Nat) : List Nat :=
  [n / 2 ^ 56 % 256, n / 2 ^ 48 % 256, n / 2 ^ 40 % 256, n / 2 ^ 32 % 256,
   n / 2 ^ 24 % 256, n / 2 ^ 16 % 256, n / 2 ^ 8 % 256, n % 256]

/-- SHA-256 padding: append `0x80`, zeros, and the 64-bit bit length. -/
def shaPad (msg : List Nat) : List Nat :=
  msg ++ 0x80 :: List.replicate ((64 - (msg.length + 9) % 64) % 64) 0 ++ bigEndian8 (msg.length * 8)

/-- The eight final hash words as a list. -/
def stateList (st : Hash8) : List Nat := [st.a, st.b, st.c, st.d, st.e, st.f, st.g, st.h]

/-- SHA-256 digest of a byte list, as eight 32-bit words. -/
def sha256words (msg : List Nat) : List Nat :=
  stateList ((chunks64 (shaPad msg)).foldl compressChunk initH)

/-- The sixteen lowercase hexadecimal digit characters. -/
def hexChars : List Char := "0123456789abcdef".data

/-- The lowercase hexadecimal digit of `n % 16`. -/
def hexDigit (n : Nat) : Char := hexChars.getD (n % 16) '0'

/-- Eight lowercase hex characters of a 32-bit word, big-endian nibbles. -/
def toHex8 (w : Nat) : List Char :=
  [hexDigit (w / 16 ^ 7), hexDigit (w / 16 ^ 6), hexDigit (w / 16 ^ 5), hexDigit (w / 16 ^ 4),
   hexDigit (w / 16 ^ 3), hexDigit (w / 16 ^ 2), hexDigit (w / 16), hexDigit w]

/-- `hashlib.sha256(msg).hexdigest()`: the lowercase hexadecimal SHA-256
digest of a byte list. -/
def sha256hex (msg : List Nat) : String :=
  String.mk ((sha256words msg).flatMap toHex8)

/-! ## Data model: the `pytsk3` collaborator surface and `Finding`

Exceptions raised by the library are embedded as `Option.none` results.
Python truthiness tests on metadata objects and timestamp fields become
`Option` matches (a `0` timestamp is falsy in Python, hence dropped). -/

/-- `pytsk3.TSK_FS_META_TYPE_DIR`. -/
def TSK_FS_META_TYPE_DIR : Nat := 2

/-- A TSK metadata structure: type code, size, and the three optional
timestamp attributes (absent attribute = `none`). -/
structure FsMeta where
  type : Nat
  size : Nat
  crtime : Option Nat
  mtime : Option Nat
  atime : Option Nat
deriving DecidableEq

/-- One directory entry as iterated by `for entry in directory`:
`name` is the decoded `entry.info.name.name` (`none` when the entry has no
`info`/`name`), `meta` is `entry.info.meta`. -/
structure DirEntry where
  name : Option String
  meta : Option FsMeta
deriving DecidableEq

/-- A file object as returned by `fs.open(path)`: its `info.meta` and its
`read_random(offset, length)` method. -/
structure FileObj where
  meta : Option FsMeta
  read : Nat → Nat → List Nat

/-- A mounted filesystem (`pytsk3.FS_Info`): `dirs path` models
`fs.open_dir(path)` (`none` = raises), `files path` models
`fs.open(path)` (`none` = raises). -/
structure FS where
  dirs : String → Option (List DirEntry)
  files : String → Option FileObj

/-- One partition of a volume, exposing its start offset (`partition.start`,
in block units). -/
structure Partition where
  start : Nat
deriving DecidableEq

/-- An opened disk image (`pytsk3.Img_Info`): `volume` models
`pytsk3.Volume_Info(img)` giving the partitions and the volume block size
(`none` = raises: no partition table); `fsAt o` models
`pytsk3.FS_Info(img, offset=b)` for `o = some b` and `pytsk3.FS_Info(img)`
for `o = none` (`none` result = raises). -/
structure Image where
  volume : Option (List Partition × Nat)
  fsAt : Option Nat → Option FS

/-- The `Finding` dataclass of `core/models.py`.  Timestamps are kept as
the raw epoch values passed to `datetime.datetime.fromtimestamp`. -/
structure Finding where
  hash_value : String
  file_path : String
  file_size : Nat
  file_name : String
  partition_offset : Option Nat := none
  created_time : Option Nat := none
  modified_time : Option Nat := none
  accessed_time : Option Nat := none
deriving DecidableEq

/-! ## `walk_fs`: the recursive directory tree walk -/

/-- Python `path.strip("/")` on a character list: remove leading and
trailing `'/'` characters. -/
def stripChars (l : List Char) : List Char :=
  ((l.dropWhile (· = '/')).reverse.dropWhile (· = '/')).reverse

/-- Python `s.replace("//", "/")`: leftmost non-overlapping replacement of
each double separator by a single one. -/
def replaceDS : List Char → List Char
  | [] => []
  | [c] => [c]
  | c1 :: c2 :: rest =>
    if c1 = '/' ∧ c2 = '/' then '/' :: replaceDS rest
    else c1 :: replaceDS (c2 :: rest)

/-- Split a character list at every `'/'`, keeping empty pieces — the
semantics of Python `s.split('/')`. -/
def splitSlash : List Char → List (List Char)
  | [] => [[]]
  | c :: rest =>
    if c = '/' then [] :: splitSlash rest
    else
      match splitSlash rest with
      | [] => [[c]]
      | comp :: comps => (c :: comp) :: comps

/-- Python `s.split('/')` on strings. -/
def pySplit (s : String) : List String := (splitSlash s.data).map String.mk

/-- Python `name.startswith("$")`. -/
def startsDollar (s : String) : Bool :=
  s.data.head? == some '$'

/-- The filter of line 62: `name in [".", ".."] or name.startswith("$")`. -/
def skipName (name : String) : Bool :=
  name == "." || name == ".." || startsDollar name

/-- Line 65: `entry.info.meta and entry.info.meta.type == TSK_FS_META_TYPE_DIR`. -/
def entryIsDir (e : DirEntry) : Bool :=
  match e.meta with
  | some m => m.type == TSK_FS_META_TYPE_DIR
  | none => false

/-- Line 64: `full_path = "/".join([path.strip("/"), name]).replace("//", "/")`. -/
def childPath (path name : String) : String :=
  String.mk (replaceDS (stripChars path.data ++ '/' :: name.data))

/-- The generator `walk_fs(fs, path)` of lines 53-68, embedded as a
fuel-indexed function returning the list of yielded file paths.  The
source has no recursion bound (its spec flags unbounded recursion on
malformed images as an open question); `fuel` bounds the recursion depth
and every theorem quantifies over it. -/
def walk_fs (fs : FS) : Nat → String → List String
  | 0, _ => []
  | fuel + 1, path =>
    match fs.dirs path with
    | none => []
    | some entries =>
      entries.flatMap fun entry =>
        match entry.name with
        | none => []
        | some name =>
          if skipName name then []
          else if entryIsDir entry then walk_fs fs fuel ("/" ++ childPath path name)
          else ["/" ++ childPath path name]

/-- The contribution of a single directory entry to `walk_fs` at the given
path (the body of the `for entry in directory` loop). -/
def walkStep (fs : FS) (fuel : Nat) (path : String) (entry : DirEntry) : List String :=
  match entry.name with
  | none => []
  | some name =>
    if skipName name then []
    else if entryIsDir entry then walk_fs fs fuel ("/" ++ childPath path name)
    else ["/" ++ childPath path name]

/-- The list of paths on which `walk_fs` attempts `fs.open_dir`, in call
order (the walk's directory-open trace). -/
def walk_fs_opens (fs : FS) : Nat → String → List String
  | 0, _ => []
  | fuel + 1, path =>
    path :: (match fs.dirs path with
      | none => []
      | some entries =>
        entries.flatMap fun entry =>
          match entry.name with
          | none => []
          | some name =>
            if skipName name then []
            else if entryIsDir entry then walk_fs_opens fs fuel ("/" ++ childPath path name)
            else [])

/-- The contribution of a single directory entry to the directory-open
trace. -/
def opensStep (fs : FS) (fuel : Nat) (path : String) (entry : DirEntry) : List String :=
  match entry.name with
  | none => []
  | some name =>
    if skipName name then []
    else if entryIsDir entry then walk_fs_opens fs fuel ("/" ++ childPath path name)
    else []

/-! ## `search_filesystem`: per-file hashing and match recording -/

/-- Line 88: `size = file_obj.info.meta.size if file_obj.info.meta else 0`. -/
def metaSize (file_obj : FileObj) : Nat :=
  match file_obj.meta with
  | some m => m.size
  | none => 0

/-- Python truthiness of an optional timestamp attribute:
`if hasattr(meta, t) and meta.t:` — absent or zero gives `None`. -/
def tsOf (t : Option Nat) : Option Nat :=
  match t with
  | some v => if v = 0 then none else some v
  | none => none

/-- Line 105: `data = file_obj.read_random(0, size) if size else b""`. -/
def readData (file_obj : FileObj) (size : Nat) : List Nat :=
  if size ≠ 0 then file_obj.read 0 size else []

/-- The body of the `for file_path in walk_fs(fs)` loop of lines 82-128:
open, extract metadata, read, hash, and test membership; `none` models
both a raised-and-logged exception (open failure) and a non-matching
digest, in either case no `Finding` is appended. -/
def processFile (fs : FS) (hashes : List String) (partition_offset : Option Nat)
    (file_path : String) : Option Finding :=
  match fs.files file_path with
  | none => none
  | some file_obj =>
    let size := metaSize file_obj
    let file_name := if '/' ∈ file_path.data then (pySplit file_path).getLastD ""
                     else file_path
    let created_time := match file_obj.meta with
      | some m => tsOf m.crtime
      | none => none
    let modified_time := match file_obj.meta with
      | some m => tsOf m.mtime
      | none => none
    let accessed_time := match file_obj.meta with
      | some m => tsOf m.atime
      | none => none
    let data := readData file_obj size
    let file_hash := sha256hex data
    if file_hash ∈ hashes then
      some { hash_value := file_hash, file_path := file_path, file_size := size,
             file_name := file_name, partition_offset := partition_offset,
             created_time := created_time, modified_time := modified_time,
             accessed_time := accessed_time }
    else none

/-- `search_filesystem(fs, hashes, partition_offset)` of lines 70-145:
walk the tree from `/` and collect one `Finding` per matching readable
file, in walk order. -/
def search_filesystem (fs : FS) (hashes : List String) (fuel : Nat)
    (partition_offset : Option Nat := none) : List Finding :=
  (walk_fs fs fuel "/").filterMap (processFile fs hashes partition_offset)

/-! ## `search_image_for_hashes`: partition enumeration and fallback -/

/-- `search_image_for_hashes(image_path, hashes)` of lines 9-51.  The
argument is `none` when `pytsk3.Img_Info` raises (open failure: empty
result).  With a volume, each partition's filesystem is mounted at
`partition.start * volume.info.block_size` and searched tagged with
`partition.start`; a partition whose mount raises is skipped.  When
`Volume_Info` raises, the whole image is treated as a single filesystem
with no offset tag; if that final mount also raises the outer handler
returns the findings collected so far (the empty list). -/
def search_image_for_hashes (img : Option Image) (hashes : List String) (fuel : Nat) :
    List Finding :=
  match img with
  | none => []
  | some img =>
    match img.volume with
    | some (parts, block_size) =>
      parts.flatMap fun partition =>
        match img.fsAt (some (partition.start * block_size)) with
        | some fs => search_filesystem fs hashes fuel (some partition.start)
        | none => []
    | none =>
      match img.fsAt none with
      | some fs => search_filesystem fs hashes fuel none
      | none => []

/-! ## Event-instrumented scan (for the exactly-once guarantee)

`processFileEv` mirrors `processFile` while recording the open, read, and
hash operations the loop body performs on each path. -/

/-- One observable per-file operation of the scan loop. -/
inductive ScanEv where
  | openEv (p : String)
  | readEv (p : String) (n : Nat)
  | hashEv (p : String) (digest : String)
deriving DecidableEq

/-- Whether an event is an open of path `p`. -/
def ScanEv.isOpenFor (p : String) : ScanEv → Bool
  | .openEv q => q == p
  | _ => false

/-- Whether an event is a content read of path `p`. -/
def ScanEv.isReadFor (p : String) : ScanEv → Bool
  | .readEv q _ => q == p
  | _ => false

/-- Whether an event is a digest computation for path `p`. -/
def ScanEv.isHashFor (p : String) : ScanEv → Bool
  | .hashEv q _ => q == p
  | _ => false

/-- `processFile` with its operation trace: one open attempt, then (when
the open succeeds) one content read and one digest computation. -/
def processFileEv (fs : FS) (hashes : List String) (partition_offset : Option Nat)
    (file_path : String) : List ScanEv × Option Finding :=
  match fs.files file_path with
  | none => ([.openEv file_path], none)
  | some file_obj =>
    let size := metaSize file_obj
    let data := readData file_obj size
    let file_hash := sha256hex data
    ([.openEv file_path, .readEv file_path size, .hashEv file_path file_hash],
     processFile fs hashes partition_offset file_path)

/-- The scan's full operation trace over the walk. -/
def scanEvents (fs : FS) (hashes : List String) (fuel : Nat)
    (partition_offset : Option Nat) : List ScanEv :=
  (walk_fs fs fuel "/").flatMap fun p => (processFileEv fs hashes partition_offset p).1

/-! ## Clock-instrumented scan (for progress-reporting safety)

`time.time()` becomes a sequence `clock : Nat → ℚ` of readings consumed in
call order: index 0 at line 76 (`last_progress_time`), index 1 at line 78
(`start_time`), index `1 + k` at the `k`-th loop iteration (line 133), and
index `2 + N` at line 141.  The recorded `periodicDivs` are the divisors
`elapsed_time` of line 136; `finalDiv` is `some total_time` exactly when
line 142 performs its guarded division. -/

/-- Mutable state of the scan loop of lines 72-138. -/
structure LoopSt where
  findings : List Finding
  processed : Nat
  matchesFound : Nat
  lastProg : ℚ
  divs : List ℚ

/-- Result of the clock-instrumented scan. -/
structure ClockScan where
  findings : List Finding
  processed : Nat
  matchesFound : Nat
  periodicDivs : List ℚ
  finalDiv : Option ℚ

/-- One iteration of the loop of lines 82-138 under the clock. -/
def clockStep (clock : Nat → ℚ) (start_time : ℚ) (fs : FS) (hashes : List String)
    (partition_offset : Option Nat) (st : LoopSt) (file_path : String) : LoopSt :=
  let st :=
    match processFile fs hashes partition_offset file_path with
    | some f => { st with findings := st.findings ++ [f], matchesFound := st.matchesFound + 1 }
    | none => st
  let processed := st.processed + 1
  let current_time := clock (1 + processed)
  if current_time - st.lastProg ≥ 1 then
    { st with processed := processed, lastProg := current_time,
              divs := st.divs ++ [current_time - start_time] }
  else
    { st with processed := processed }

/-- `search_filesystem` with the clock made explicit, recording every
throughput divisor. -/
def search_filesystem_clock (clock : Nat → ℚ) (fs : FS) (hashes : List String)
    (fuel : Nat) (partition_offset : Option Nat := none) : ClockScan :=
  let last_progress_time := clock 0
  let start_time := clock 1
  let final := (walk_fs fs fuel "/").foldl
    (clockStep clock start_time fs hashes partition_offset)
    ⟨[], 0, 0, last_progress_time, []⟩
  let total_time := clock (2 + final.processed) - start_time
  { findings := final.findings, processed := final.processed,
    matchesFound := final.matchesFound, periodicDivs := final.divs,
    finalDiv := if total_time > 0 then some total_time else none }

/-! ## Concrete images used by witnesses and counterexamples -/

/-- Bytes of `"hello"`. -/
def aBytes : List Nat := [104, 101, 108, 108, 111]

/-- Bytes of `"world"`. -/
def bBytes : List Nat := [119, 111, 114, 108, 100]

/-- SHA-256 of `"hello"`. -/
def h1 : String := "2cf24dba5fb0a30e26e83b2ac5b9e29e1b161e5c1fa7425e73043362938b9824"

/-- SHA-256 of `"world"`. -/
def h2 : String := "486ea46224d1bb4fb680f34f7c9ad96a8f24ec88be73ea8e5a6c65260e9cb8a7"

/-- SHA-256 of the empty byte string. -/
def h0 : String := "e3b0c44298fc1c149afbf4c8996fb92427ae41e4649b934ca495991b7852b855"

/-- A regular-file metadata record of the given size, no timestamps. -/
def regMeta (size : Nat) : FsMeta := ⟨1, size, none, none, none⟩

/-- A directory metadata record. -/
def dirMeta : FsMeta := ⟨TSK_FS_META_TYPE_DIR, 0, none, none, none⟩

/-- File object holding the given content, with a faithful
`read_random(offset, length)`. -/
def mkFile (content : List Nat) : FileObj :=
  ⟨some (regMeta content.length), fun off len => (content.drop off).take len⟩

/-- The root directory listing of the demo filesystem: a top-level file
`a.txt`, a subdirectory `dir`, and a subdirectory `broken` whose open
fails. -/
def rootEntriesA : List DirEntry :=
  [⟨some "a.txt", some (regMeta 5)⟩, ⟨some "dir", some dirMeta⟩,
   ⟨some "broken", some dirMeta⟩]

/-- Demo unpartitioned filesystem: `/a.txt` (content `"hello"`, hash `h1`)
and `/dir/b.txt` (content `"world"`, hash `h2`); opening `broken` fails. -/
def fsA : FS where
  dirs := fun p =>
    if p = "/" then some rootEntriesA
    else if p = "//dir" then some [⟨some "b.txt", some (regMeta 5)⟩]
    else none
  files := fun p =>
    if p = "//a.txt" then some (mkFile aBytes)
    else if p = "/dir/b.txt" then some (mkFile bBytes)
    else none

/-- Demo image holding `fsA` as a single unpartitioned filesystem. -/
def imgA : Image where
  volume := none
  fsAt := fun o => if o = none then some fsA else none

/-- A single-file filesystem with content at the top level. -/
def mkFlatFS (name : String) (content : List Nat) : FS where
  dirs := fun p => if p = "/" then some [⟨some name, some (regMeta content.length)⟩] else none
  files := fun p => if p = "/" ++ "/" ++ name then some (mkFile content) else none

/-- Two-partition demo image: partitions at block offsets 0 and 2048,
block size 512, each holding one file. -/
def imgB : Image where
  volume := some ([⟨0⟩, ⟨2048⟩], 512)
  fsAt := fun o =>
    if o = some 0 then some (mkFlatFS "x" aBytes)
    else if o = some (2048 * 512) then some (mkFlatFS "y" bBytes)
    else none

/-- A directory entry with a name but no metadata structure. -/
def ghostEntry : DirEntry := ⟨some "ghost", none⟩

/-- Filesystem whose root holds a single entry with a name but no
metadata structure. -/
def fsGhost : FS where
  dirs := fun p => if p = "/" then some [ghostEntry] else none
  files := fun p => if p = "//ghost" then some ⟨none, fun _ _ => []⟩ else none

/-- The finding the demo unpartitioned search produces. -/
def findA : Finding := ⟨h1, "//a.txt", 5, "a.txt", none, none, none, none⟩

/-- The finding produced from the partition at offset 0 of `imgB`. -/
def findX : Finding := ⟨h1, "//x", 5, "x", some 0, none, none, none⟩

/-! ## Predicates used in theorem statements -/

/-- A path component the walk must filter: `.`, `..`, or a name beginning
with the `$` filesystem-internal-metadata marker. -/
def badComp (comp : List Char) : Bool :=
  comp == ['.'] || comp == ['.', '.'] || comp.head? == some '$'

/-- Every `/`-separated component of the string is acceptable (none is
`.`, `..`, or `$`-prefixed). -/
def cleanStr (s : String) : Prop :=
  ∀ comp ∈ splitSlash s.data, badComp comp = false

instance (s : String) : Decidable (cleanStr s) := by
  unfold cleanStr; infer_instance

/-- Well-formedness of the collaborator filesystem: directory entry names
never contain the path separator (a TSK directory entry name is a single
component by construction). -/
def NoSlashNames (fs : FS) : Prop :=
  ∀ path entries, fs.dirs path = some entries →
    ∀ e ∈ entries, ∀ n, e.name = some n → '/' ∉ n.data

/-- The filesystem `fs` is one of the filesystems the orchestrator mounts
from `img`, and `poff` is the offset tag it passes for it. -/
def mountedFS (img : Image) (fs : FS) (poff : Option Nat) : Prop :=
  match img.volume with
  | some (parts, block_size) =>
    ∃ p ∈ parts, img.fsAt (some (p.start * block_size)) = some fs ∧ poff = some p.start
  | none => img.fsAt none = some fs ∧ poff = none

/-- A well-behaved clock: readings `0, 0, 1, 2, 3, ...` — the two
initialization readings coincide. -/
def clockW : Nat → ℚ := fun n => ((n - 1 : Nat) : ℚ)

/-- A monotone clock that advances by the full progress interval between
the `last_progress_time` and `start_time` readings: `0, 1, 1, 1, ...`. -/
def clockCE : Nat → ℚ := fun n => if n = 0 then 0 else 1

/-! # Theorems -/

/-- Characterization of a successful `processFile`: the produced `Finding`
records the matched digest of the bytes read from the opened file. -/
theorem processFile_eq_some {fs : FS} {hashes : List String} {poff : Option Nat}
    {p : String} {f : Finding} (h : processFile fs hashes poff p = some f) :
    f.hash_value ∈ hashes ∧ f.file_path = p ∧ f.partition_offset = poff ∧
    ∃ file_obj, fs.files p = some file_obj ∧
      f.hash_value = sha256hex (readData file_obj (metaSize file_obj)) ∧
      f.file_size = metaSize file_obj := by
  cases hf : fs.files p with
  | none => simp [processFile, hf] at h
  | some fobj =>
    simp only [processFile, hf] at h
    by_cases hmem : sha256hex (readData fobj (metaSize fobj)) ∈ hashes
    · rw [if_pos hmem] at h
      obtain rfl := Option.some.inj h
      exact ⟨hmem, rfl, rfl, fobj, rfl, rfl, rfl⟩
    · rw [if_neg hmem] at h
      cases h

/-- Every finding of `search_filesystem` carries the offset tag it was
called with, lies on a walked path, and matches the digest of the bytes
read from its file. -/
theorem mem_search_filesystem {fs : FS} {hashes : List String} {fuel : Nat}
    {poff : Option Nat} {f : Finding} (h : f ∈ search_filesystem fs hashes fuel poff) :
    f.hash_value ∈ hashes ∧ f.partition_offset = poff ∧ f.file_path ∈ walk_fs fs fuel "/" ∧
    ∃ file_obj, fs.files f.file_path = some file_obj ∧
      f.hash_value = sha256hex (readData file_obj (metaSize file_obj)) := by
  obtain ⟨p, hp, hpf⟩ := List.mem_filterMap.mp h
  obtain ⟨hmem, hpath, hoff, fobj, hfo, hhash, hsize⟩ := processFile_eq_some hpf
  subst hpath
  exact ⟨hmem, hoff, hp, fobj, hfo, hhash⟩

/-- **C1.** Soundness of matching: every `Finding` returned by
`search_image_for_hashes` has a `hash_value` that is a member of the
target hash set and that equals the SHA-256 hex digest computed from the
bytes actually read from the file at its `file_path` in the mounted
filesystem it was found in. -/
theorem C1_soundness {img : Option Image} {hashes : List String} {fuel : Nat}
    {f : Finding} (h : f ∈ search_image_for_hashes img hashes fuel) :
    f.hash_value ∈ hashes ∧
    ∃ i fs, img = some i ∧ mountedFS i fs f.partition_offset ∧
      ∃ file_obj, fs.files f.file_path = some file_obj ∧
        f.hash_value = sha256hex (readData file_obj (metaSize file_obj)) := by
  match img with
  | none => simp [search_image_for_hashes] at h
  | some i =>
    cases hv : i.volume with
    | none =>
      simp only [search_image_for_hashes, hv] at h
      cases hm : i.fsAt none with
      | none => rw [hm] at h; simp at h
      | some fs =>
        rw [hm] at h
        obtain ⟨hmem, hoff, hwalk, fobj, hfo, hhash⟩ := mem_search_filesystem h
        refine ⟨hmem, i, fs, rfl, ?_, fobj, hfo, hhash⟩
        simp only [mountedFS, hv]
        exact ⟨hm, hoff⟩
    | some pb =>
      obtain ⟨parts, block_size⟩ := pb
      simp only [search_image_for_hashes, hv] at h
      obtain ⟨part, hpart, hmem2⟩ := List.mem_flatMap.mp h
      cases hm : i.fsAt (some (part.start * block_size)) with
      | none => rw [hm] at hmem2; simp at hmem2
      | some fs =>
        rw [hm] at hmem2
        obtain ⟨hmem, hoff, hwalk, fobj, hfo, hhash⟩ := mem_search_filesystem hmem2
        refine ⟨hmem, i, fs, rfl, ?_, fobj, hfo, hhash⟩
        simp only [mountedFS, hv]
        exact ⟨part, hpart, hm, hoff⟩

/-- Witness for C1: the demo unpartitioned image produces the finding for
`//a.txt`, and C1's conclusion holds of it. -/
theorem C1_soundness_witness :
    findA ∈ search_image_for_hashes (some imgA) [h1] 3 ∧
    (findA.hash_value ∈ [h1] ∧
      ∃ i fs, (some imgA : Option Image) = some i ∧
        mountedFS i fs findA.partition_offset ∧
        ∃ file_obj, fs.files findA.file_path = some file_obj ∧
          findA.hash_value = sha256hex (readData file_obj (metaSize file_obj))) :=
  ⟨by decide, @C1_soundness (some imgA) [h1] 3 findA (by decide)⟩

/-- **C5.** Unpartitioned fallback: when reading the partition table
raises, the search does not fail; it scans the whole image as a single
filesystem (the result is exactly that filesystem's scan when it mounts),
and every `Finding` produced in that mode has `partition_offset = none`. -/
theorem C5_unpartitioned_fallback {img : Image} (hashes : List String) (fuel : Nat)
    (hv : img.volume = none) :
    (∀ fs, img.fsAt none = some fs →
      search_image_for_hashes (some img) hashes fuel = search_filesystem fs hashes fuel none) ∧
    (∀ f ∈ search_image_for_hashes (some img) hashes fuel, f.partition_offset = none) := by
  constructor
  · intro fs hm
    simp [search_image_for_hashes, hv, hm]
  · intro f hf
    simp only [search_image_for_hashes, hv] at hf
    cases hm : img.fsAt none with
    | none => rw [hm] at hf; simp at hf
    | some fs =>
      rw [hm] at hf
      exact (mem_search_filesystem hf).2.1

/-- Witness for C5 at the demo unpartitioned image. -/
theorem C5_unpartitioned_fallback_witness :
    (∀ fs, imgA.fsAt none = some fs →
      search_image_for_hashes (some imgA) [h1] 3 = search_filesystem fs [h1] 3 none) ∧
    (∀ f ∈ search_image_for_hashes (some imgA) [h1] 3, f.partition_offset = none) :=
  C5_unpartitioned_fallback [h1] 3 rfl

/-- **C6.** Partition provenance: with a partition table, every returned
`Finding` arises from the scan of some listed partition's filesystem,
mounted at that partition's start offset times the volume block size, and
is tagged with that partition's start offset. -/
theorem C6_partition_provenance {img : Image} {parts : List Partition} {block_size : Nat}
    {hashes : List String} {fuel : Nat} {f : Finding}
    (hv : img.volume = some (parts, block_size))
    (hf : f ∈ search_image_for_hashes (some img) hashes fuel) :
    ∃ p ∈ parts, ∃ fs, img.fsAt (some (p.start * block_size)) = some fs ∧
      f.partition_offset = some p.start ∧
      f ∈ search_filesystem fs hashes fuel (some p.start) := by
  simp only [search_image_for_hashes, hv] at hf
  obtain ⟨part, hpart, hmem2⟩ := List.mem_flatMap.mp hf
  cases hm : img.fsAt (some (part.start * block_size)) with
  | none => rw [hm] at hmem2; simp at hmem2
  | some fs =>
    rw [hm] at hmem2
    exact ⟨part, hpart, fs, hm, (mem_search_filesystem hmem2).2.1, hmem2⟩

/-- Witness for C6: the two-partition scenario yields exactly two findings
tagged `some 0` and `some 2048`, and C6's conclusion holds of the first. -/
theorem C6_partition_provenance_witness :
    (search_image_for_hashes (some imgB) [h1, h2] 3).map (fun f => f.partition_offset) =
      [some 0, some 2048] ∧
    (∃ p ∈ [(⟨0⟩ : Partition), ⟨2048⟩], ∃ fs,
      imgB.fsAt (some (p.start * 512)) = some fs ∧
      findX.partition_offset = some p.start ∧
      findX ∈ search_filesystem fs [h1, h2] 3 (some p.start)) :=
  ⟨by decide, @C6_partition_provenance imgB [⟨0⟩, ⟨2048⟩] 512 [h1, h2] 3 findX rfl (by decide)⟩

/-- Unfolding of the walk at positive fuel: the concatenation of the
per-entry contributions. -/
theorem walk_fs_succ (fs : FS) (fuel : Nat) (path : String) :
    walk_fs fs (fuel + 1) path =
      match fs.dirs path with
      | none => []
      | some entries => entries.flatMap (walkStep fs fuel path) := rfl

/-- A failed directory open yields nothing, at any fuel. -/
theorem walk_fs_open_fail {fs : FS} {path : String} (h : fs.dirs path = none) :
    ∀ fuel, walk_fs fs fuel path = [] := by
  intro fuel
  cases fuel with
  | zero => rfl
  | succ fuel => rw [walk_fs_succ, h]

/-- **C8.** Silent subtree abandonment: if opening a path as a directory
fails, the walk yields nothing for that subtree and the failure does not
propagate; a directory that does open contributes the independent
concatenation of its entries' walks, and an entry naming a subdirectory
whose open fails contributes nothing — so such a failure never aborts the
enclosing filesystem scan. -/
theorem C8_silent_abandonment (fs : FS) (fuel : Nat) (path : String) :
    (fs.dirs path = none → walk_fs fs fuel path = []) ∧
    (∀ entries, fs.dirs path = some entries →
      walk_fs fs (fuel + 1) path = entries.flatMap (walkStep fs fuel path)) ∧
    (∀ e n, e.name = some n → skipName n = false → entryIsDir e = true →
      fs.dirs ("/" ++ childPath path n) = none → walkStep fs fuel path e = []) := by
  refine ⟨fun h => walk_fs_open_fail h fuel, fun entries h => by rw [walk_fs_succ, h], ?_⟩
  intro e n hn hskip hdir hfail
  simp only [walkStep, hn, hskip, hdir]
  simp only [Bool.false_eq_true, if_false, if_true]
  exact walk_fs_open_fail hfail fuel

/-- Witness for C8 on the demo filesystem: `/nope` does not open and
yields nothing; the root's walk is its entries' concatenation; the
`broken` subdirectory entry contributes nothing. -/
theorem C8_silent_abandonment_witness :
    walk_fs fsA 2 "/nope" = [] ∧
    walk_fs fsA 2 "/" = rootEntriesA.flatMap (walkStep fsA 1 "/") ∧
    walkStep fsA 1 "/" ⟨some "broken", some dirMeta⟩ = [] :=
  ⟨(C8_silent_abandonment fsA 2 "/nope").1 rfl,
   (C8_silent_abandonment fsA 1 "/").2.1 rootEntriesA rfl,
   (C8_silent_abandonment fsA 1 "/").2.2 ⟨some "broken", some dirMeta⟩ "broken" rfl
     (by decide) (by decide) rfl⟩

/-- Counterexample to C7 as stated: a directory entry with a name but a
missing metadata structure is *yielded* by the tree walk (not skipped),
its path is hashed, and it can even produce a `Finding`. -/
theorem C7_counterexample :
    fsGhost.dirs "/" = some [ghostEntry] ∧ ghostEntry.meta = none ∧
    walk_fs fsGhost 2 "/" = ["//ghost"] ∧
    (search_filesystem fsGhost [h0] 2 none).map (fun f => f.file_path) = ["//ghost"] :=
  ⟨rfl, rfl, by decide, by decide⟩

/-- **C7 (amended).** Only entries whose *name* record is missing or
empty are skipped by the tree walk; an unfiltered named entry whose
metadata structure is missing is yielded as a (non-directory) file path
rather than skipped. -/
theorem C7_missing_metadata {fs : FS} {fuel : Nat} {path : String} {entries : List DirEntry}
    (h : fs.dirs path = some entries) :
    walk_fs fs (fuel + 1) path = entries.flatMap (walkStep fs fuel path) ∧
    (∀ e ∈ entries, e.name = none → walkStep fs fuel path e = []) ∧
    (∀ e ∈ entries, ∀ n, e.name = some n → skipName n = false → e.meta = none →
      walkStep fs fuel path e = ["/" ++ childPath path n]) := by
  refine ⟨by rw [walk_fs_succ, h], ?_, ?_⟩
  · intro e he hn
    simp [walkStep, hn]
  · intro e he n hn hskip hmeta
    simp [walkStep, hn, hskip, entryIsDir, hmeta]

/-- Witness for C7 (amended) at the ghost filesystem: the nameless case is
vacuous there, and the named-but-metaless entry is yielded. -/
theorem C7_missing_metadata_witness :
    walk_fs fsGhost 2 "/" = [ghostEntry].flatMap (walkStep fsGhost 1 "/") ∧
    walkStep fsGhost 1 "/" ghostEntry = ["/" ++ childPath "/" "ghost"] :=
  ⟨(@C7_missing_metadata fsGhost 1 "/" [ghostEntry] rfl).1,
   (@C7_missing_metadata fsGhost 1 "/" [ghostEntry] rfl).2.2 ghostEntry (by decide)
     "ghost" rfl (by decide) rfl⟩

/-- Counterexample to C4 as stated: on the scenario image the single
finding's `file_path` is `//a.txt`, not `/a.txt` — the walk normalizes
duplicate separators *before* prepending `/` to an already-absolute
top-level path. -/
theorem C4_counterexample :
    (search_image_for_hashes (some imgA) [h1] 3).map (fun f => f.file_path) = ["//a.txt"] ∧
    ("//a.txt" : String) ≠ "/a.txt" :=
  ⟨by decide, by decide⟩

/-- **C4 (amended).** Path construction scenario: for the image holding a
single unpartitioned filesystem with files `a.txt` (hash `h1`) and
`dir/b.txt` (hash `h2`), a search with target set `{h1}` returns exactly
one `Finding`; its `file_path` is `"//a.txt"` (the doubled leading
separator comes from prepending `/` to the normalized absolute join) and
its `partition_offset` is `none`. -/
theorem C4_scenario :
    search_image_for_hashes (some imgA) [h1] 3 = [findA] ∧
    findA.file_path = "//a.txt" ∧ findA.partition_offset = none :=
  ⟨by decide, rfl, rfl⟩

/-- The hex encoding of one word has eight characters. -/
theorem toHex8_length (w : Nat) : (toHex8 w).length = 8 := rfl

/-- The hex encoding of a word list has `8 *` its length characters. -/
theorem flatMap_toHex8_length (ws : List Nat) : (ws.flatMap toHex8).length = 8 * ws.length := by
  induction ws with
  | nil => simp
  | cons w ws ih =>
    rw [List.flatMap_cons, List.length_append, toHex8_length, ih, List.length_cons]
    ring

/-- A SHA-256 hex digest has exactly 64 characters. -/
theorem sha256hex_length (msg : List Nat) : (sha256hex msg).length = 64 := by
  have h : (sha256hex msg).length = ((sha256words msg).flatMap toHex8).length := rfl
  rw [h, flatMap_toHex8_length, show (sha256words msg).length = 8 from rfl]

/-- Every hex digit character is one of the sixteen lowercase digits. -/
theorem hexDigit_mem (n : Nat) : hexDigit n ∈ hexChars := by
  have h : n % 16 < hexChars.length := Nat.mod_lt n (by decide)
  rw [hexDigit, List.getD_eq_getElem hexChars '0' h]
  exact List.getElem_mem h

/-- Characters of a word's hex encoding are lowercase hex digits. -/
theorem toHex8_subset {w : Nat} {c : Char} (h : c ∈ toHex8 w) : c ∈ hexChars := by
  simp only [toHex8, List.mem_cons, List.not_mem_nil, or_false] at h
  rcases h with h | h | h | h | h | h | h | h <;> (subst h; exact hexDigit_mem _)

/-- Every character of a SHA-256 hex digest is a lowercase hex digit. -/
theorem sha256hex_chars {msg : List Nat} {c : Char} (h : c ∈ (sha256hex msg).data) :
    c ∈ hexChars := by
  have h2 : c ∈ (sha256words msg).flatMap toHex8 := h
  obtain ⟨w, _, hc⟩ := List.mem_flatMap.mp h2
  exact toHex8_subset hc

/-- **C10.** The content digest algorithm is SHA-256 with hexadecimal
encoding: every finding's `hash_value` equals the SHA-256 hex digest of
the bytes read from its file and is a 64-character string of lowercase
hexadecimal digits — so only target sets expressed as such strings can
ever match. -/
theorem C10_sha256_hex {fs : FS} {hashes : List String} {fuel : Nat}
    {poff : Option Nat} {f : Finding} (h : f ∈ search_filesystem fs hashes fuel poff) :
    (∃ file_obj, fs.files f.file_path = some file_obj ∧
      f.hash_value = sha256hex (readData file_obj (metaSize file_obj))) ∧
    f.hash_value.length = 64 ∧ (∀ c ∈ f.hash_value.data, c ∈ hexChars) ∧
    f.hash_value ∈ hashes := by
  obtain ⟨hmem, _, _, fobj, hfo, hhash⟩ := mem_search_filesystem h
  refine ⟨⟨fobj, hfo, hhash⟩, ?_, ?_, hmem⟩
  · rw [hhash]; exact sha256hex_length _
  · intro c hc
    rw [hhash] at hc
    exact sha256hex_chars hc

/-- Witness for C10 at the demo filesystem's finding. -/
theorem C10_sha256_hex_witness :
    (∃ file_obj, fsA.files findA.file_path = some file_obj ∧
      findA.hash_value = sha256hex (readData file_obj (metaSize file_obj))) ∧
    findA.hash_value.length = 64 ∧ (∀ c ∈ findA.hash_value.data, c ∈ hexChars) ∧
    findA.hash_value ∈ [h1] :=
  @C10_sha256_hex fsA [h1] 3 none findA (by decide)

/-- The instrumented per-file step computes the same optional `Finding`
as the plain one. -/
theorem processFileEv_snd (fs : FS) (hashes : List String) (poff : Option Nat) (p : String) :
    (processFileEv fs hashes poff p).2 = processFile fs hashes poff p := by
  cases h : fs.files p with
  | none => simp [processFileEv, processFile, h]
  | some fobj => simp [processFileEv, h]

/-- Open-event count of one step: one open per visit of the path. -/
theorem processFileEv_countOpen (fs : FS) (hashes : List String) (poff : Option Nat)
    (q p : String) :
    (processFileEv fs hashes poff q).1.countP (ScanEv.isOpenFor p) =
      if q = p then 1 else 0 := by
  by_cases hqp : q = p
  · subst hqp
    cases h : fs.files q <;> simp [processFileEv, h, ScanEv.isOpenFor, List.countP_cons]
  · cases h : fs.files q <;>
      simp [processFileEv, h, hqp, ScanEv.isOpenFor, List.countP_cons]

/-- Read-event count of one step: one read per visit when the path opens,
none otherwise. -/
theorem processFileEv_countRead (fs : FS) (hashes : List String) (poff : Option Nat)
    (q p : String) :
    (processFileEv fs hashes poff q).1.countP (ScanEv.isReadFor p) =
      if q = p ∧ (fs.files q).isSome then 1 else 0 := by
  by_cases hqp : q = p
  · subst hqp
    cases h : fs.files q <;>
      simp [processFileEv, h, ScanEv.isReadFor, ScanEv.isOpenFor, List.countP_cons]
  · cases h : fs.files q <;>
      simp [processFileEv, h, hqp, ScanEv.isReadFor, ScanEv.isOpenFor, List.countP_cons]

/-- Hash-event count of one step: one digest per visit when the path
opens, none otherwise. -/
theorem processFileEv_countHash (fs : FS) (hashes : List String) (poff : Option Nat)
    (q p : String) :
    (processFileEv fs hashes poff q).1.countP (ScanEv.isHashFor p) =
      if q = p ∧ (fs.files q).isSome then 1 else 0 := by
  by_cases hqp : q = p
  · subst hqp
    cases h : fs.files q <;>
      simp [processFileEv, h, ScanEv.isHashFor, ScanEv.isOpenFor, ScanEv.isReadFor,
        List.countP_cons]
  · cases h : fs.files q <;>
      simp [processFileEv, h, hqp, ScanEv.isHashFor, ScanEv.isOpenFor, ScanEv.isReadFor,
        List.countP_cons]

/-- Open events over a path list: one per occurrence. -/
theorem flatMapEv_countOpen (fs : FS) (hashes : List String) (poff : Option Nat)
    (p : String) (l : List String) :
    (l.flatMap fun q => (processFileEv fs hashes poff q).1).countP (ScanEv.isOpenFor p) =
      l.count p := by
  induction l with
  | nil => simp
  | cons q l ih =>
    rw [List.flatMap_cons, List.countP_append, ih, processFileEv_countOpen,
      List.count_cons]
    by_cases hqp : q = p <;> simp [hqp]
    omega

/-- Read events over a path list: one per occurrence of an openable path. -/
theorem flatMapEv_countRead (fs : FS) (hashes : List String) (poff : Option Nat)
    (p : String) (l : List String) (hp : (fs.files p).isSome) :
    (l.flatMap fun q => (processFileEv fs hashes poff q).1).countP (ScanEv.isReadFor p) =
      l.count p := by
  induction l with
  | nil => simp
  | cons q l ih =>
    rw [List.flatMap_cons, List.countP_append, ih, processFileEv_countRead,
      List.count_cons]
    by_cases hqp : q = p
    · subst hqp; simp [hp]; omega
    · simp [hqp]

/-- Hash events over a path list: one per occurrence of an openable path. -/
theorem flatMapEv_countHash (fs : FS) (hashes : List String) (poff : Option Nat)
    (p : String) (l : List String) (hp : (fs.files p).isSome) :
    (l.flatMap fun q => (processFileEv fs hashes poff q).1).countP (ScanEv.isHashFor p) =
      l.count p := by
  induction l with
  | nil => simp
  | cons q l ih =>
    rw [List.flatMap_cons, List.countP_append, ih, processFileEv_countHash,
      List.count_cons]
    by_cases hqp : q = p
    · subst hqp; simp [hp]; omega
    · simp [hqp]

/-- Findings with a given path over a path list: one per occurrence when
that path's processing yields a finding, none otherwise. -/
theorem filterMap_count_path (fs : FS) (hashes : List String) (poff : Option Nat)
    (p : String) (l : List String) :
    (l.filterMap (processFile fs hashes poff)).countP (fun f => f.file_path == p) =
      if (processFile fs hashes poff p).isSome then l.count p else 0 := by
  induction l with
  | nil => simp
  | cons q l ih =>
    rw [List.filterMap_cons]
    cases hq : processFile fs hashes poff q with
    | none =>
      by_cases hqp : q = p
      · subst hqp
        simp [hq, List.count_cons, ih]
      · rw [ih, List.count_cons]
        simp [hqp]
    | some f =>
      have hfp : f.file_path = q := (processFile_eq_some hq).2.1
      by_cases hqp : q = p
      · subst hqp
        rw [List.countP_cons, ih, List.count_cons, hq]
        simp [hfp]
      · rw [List.countP_cons, ih, List.count_cons]
        simp [hfp, hqp]

/-- A file that opens and matches produces a finding at that path. -/
theorem processFile_isSome_of_match {fs : FS} {hashes : List String} {poff : Option Nat}
    {p : String} {fobj : FileObj} (hp : fs.files p = some fobj)
    (hm : sha256hex (readData fobj (metaSize fobj)) ∈ hashes) :
    (processFile fs hashes poff p).isSome = true := by
  simp [processFile, hp, hm]

/-- A file that opens but does not match produces no finding. -/
theorem processFile_none_of_nomatch {fs : FS} {hashes : List String} {poff : Option Nat}
    {p : String} {fobj : FileObj} (hp : fs.files p = some fobj)
    (hm : sha256hex (readData fobj (metaSize fobj)) ∉ hashes) :
    processFile fs hashes poff p = none := by
  simp [processFile, hp, hm]

/-- A file that fails to open produces no finding. -/
theorem processFile_none_of_openfail {fs : FS} {hashes : List String} {poff : Option Nat}
    {p : String} (hp : fs.files p = none) :
    processFile fs hashes poff p = none := by
  simp [processFile, hp]

/-- **C2.** Exactly-once processing: per scan, every yielded path is
opened exactly once per yield; every yielded path that opens is read and
hashed exactly once per yield; a yielded path that opens and whose digest
is in the target set produces exactly one `Finding` per yield (so exactly
one per matching readable file — no duplicates, no omissions), and one
that opens without matching, or fails to open, produces none. -/
theorem C2_exactly_once (fs : FS) (hashes : List String) (fuel : Nat)
    (poff : Option Nat) (p : String) :
    ((scanEvents fs hashes fuel poff).countP (ScanEv.isOpenFor p) =
      (walk_fs fs fuel "/").count p) ∧
    (∀ file_obj, fs.files p = some file_obj →
      ((scanEvents fs hashes fuel poff).countP (ScanEv.isReadFor p) =
        (walk_fs fs fuel "/").count p) ∧
      ((scanEvents fs hashes fuel poff).countP (ScanEv.isHashFor p) =
        (walk_fs fs fuel "/").count p) ∧
      (sha256hex (readData file_obj (metaSize file_obj)) ∈ hashes →
        (search_filesystem fs hashes fuel poff).countP (fun f => f.file_path == p) =
          (walk_fs fs fuel "/").count p) ∧
      (sha256hex (readData file_obj (metaSize file_obj)) ∉ hashes →
        (search_filesystem fs hashes fuel poff).countP (fun f => f.file_path == p) = 0)) ∧
    (fs.files p = none →
      (search_filesystem fs hashes fuel poff).countP (fun f => f.file_path == p) = 0) := by
  refine ⟨flatMapEv_countOpen fs hashes poff p (walk_fs fs fuel "/"), ?_, ?_⟩
  · intro fobj hp
    have hps : (fs.files p).isSome := by rw [hp]; rfl
    refine ⟨flatMapEv_countRead fs hashes poff p _ hps,
            flatMapEv_countHash fs hashes poff p _ hps, ?_, ?_⟩
    · intro hm
      rw [show search_filesystem fs hashes fuel poff =
        (walk_fs fs fuel "/").filterMap (processFile fs hashes poff) from rfl,
        filterMap_count_path, processFile_isSome_of_match hp hm, if_pos rfl]
    · intro hm
      rw [show search_filesystem fs hashes fuel poff =
        (walk_fs fs fuel "/").filterMap (processFile fs hashes poff) from rfl,
        filterMap_count_path, processFile_none_of_nomatch hp hm]
      simp
  · intro hp
    rw [show search_filesystem fs hashes fuel poff =
      (walk_fs fs fuel "/").filterMap (processFile fs hashes poff) from rfl,
      filterMap_count_path, processFile_none_of_openfail hp]
    simp

/-- Witness for C2 at the demo filesystem and the path `//a.txt`, which
the walk yields exactly once. -/
theorem C2_exactly_once_witness :
    (walk_fs fsA 3 "/").count "//a.txt" = 1 ∧
    (scanEvents fsA [h1] 3 none).countP (ScanEv.isOpenFor "//a.txt") =
      (walk_fs fsA 3 "/").count "//a.txt" ∧
    (scanEvents fsA [h1] 3 none).countP (ScanEv.isReadFor "//a.txt") =
      (walk_fs fsA 3 "/").count "//a.txt" ∧
    (scanEvents fsA [h1] 3 none).countP (ScanEv.isHashFor "//a.txt") =
      (walk_fs fsA 3 "/").count "//a.txt" ∧
    (search_filesystem fsA [h1] 3 none).countP (fun f => f.file_path == "//a.txt") =
      (walk_fs fsA 3 "/").count "//a.txt" :=
  ⟨by decide,
   (C2_exactly_once fsA [h1] 3 none "//a.txt").1,
   ((C2_exactly_once fsA [h1] 3 none "//a.txt").2.1 (mkFile aBytes) rfl).1,
   ((C2_exactly_once fsA [h1] 3 none "//a.txt").2.1 (mkFile aBytes) rfl).2.1,
   ((C2_exactly_once fsA [h1] 3 none "//a.txt").2.1 (mkFile aBytes) rfl).2.2.1 (by decide)⟩

/-- One clocked loop iteration appends exactly the optional finding of the
plain per-file step. -/
theorem clockStep_findings (clock : Nat → ℚ) (start : ℚ) (fs : FS) (hashes : List String)
    (poff : Option Nat) (st : LoopSt) (q : String) :
    (clockStep clock start fs hashes poff st q).findings =
      st.findings ++ (processFile fs hashes poff q).toList := by
  unfold clockStep
  cases processFile fs hashes poff q <;> dsimp <;> split <;> simp

/-- The clocked loop accumulates exactly the findings of the plain
filter-map over the walked paths. -/
theorem clock_foldl_findings (clock : Nat → ℚ) (start : ℚ) (fs : FS)
    (hashes : List String) (poff : Option Nat) (l : List String) (st : LoopSt) :
    (l.foldl (clockStep clock start fs hashes poff) st).findings =
      st.findings ++ l.filterMap (processFile fs hashes poff) := by
  induction l generalizing st with
  | nil => simp
  | cons q l ih =>
    rw [List.foldl_cons, ih, List.filterMap_cons, clockStep_findings]
    cases processFile fs hashes poff q <;> simp

/-- Invariant of one clocked iteration: the last-progress reading stays at
or above the initial reading, and recorded divisors stay positive, given
that the clock is monotone and `start_time` was read less than one
interval after `last_progress_time`. -/
theorem clockStep_inv (clock : Nat → ℚ) (start : ℚ) (fs : FS) (hashes : List String)
    (poff : Option Nat) (st : LoopSt) (q : String)
    (hmono : ∀ i j, i ≤ j → clock i ≤ clock j) (hstart : start < clock 0 + 1)
    (hlast : clock 0 ≤ st.lastProg) (hdivs : ∀ d ∈ st.divs, 0 < d) :
    clock 0 ≤ (clockStep clock start fs hashes poff st q).lastProg ∧
    ∀ d ∈ (clockStep clock start fs hashes poff st q).divs, 0 < d := by
  unfold clockStep
  cases processFile fs hashes poff q <;> dsimp <;> split
  case _ hge =>
    refine ⟨hmono 0 _ (Nat.zero_le _), ?_⟩
    intro d hd
    rcases List.mem_append.mp hd with hd | hd
    · exact hdivs d hd
    · have hdval : d = clock (1 + (st.processed + 1)) - start := List.mem_singleton.mp hd
      have h1 : st.lastProg + 1 ≤ clock (1 + (st.processed + 1)) := by linarith
      rw [hdval]; linarith
  case _ => exact ⟨hlast, hdivs⟩
  case _ hge =>
    refine ⟨hmono 0 _ (Nat.zero_le _), ?_⟩
    intro d hd
    rcases List.mem_append.mp hd with hd | hd
    · exact hdivs d hd
    · have hdval : d = clock (1 + (st.processed + 1)) - start := List.mem_singleton.mp hd
      have h1 : st.lastProg + 1 ≤ clock (1 + (st.processed + 1)) := by linarith
      rw [hdval]; linarith
  case _ => exact ⟨hlast, hdivs⟩

/-- The loop-level divisor invariant. -/
theorem clock_foldl_divs (clock : Nat → ℚ) (start : ℚ) (fs : FS) (hashes : List String)
    (poff : Option Nat) (l : List String) (st : LoopSt)
    (hmono : ∀ i j, i ≤ j → clock i ≤ clock j) (hstart : start < clock 0 + 1)
    (hlast : clock 0 ≤ st.lastProg) (hdivs : ∀ d ∈ st.divs, 0 < d) :
    ∀ d ∈ (l.foldl (clockStep clock start fs hashes poff) st).divs, 0 < d := by
  induction l generalizing st with
  | nil => exact hdivs
  | cons q l ih =>
    rw [List.foldl_cons]
    obtain ⟨h1, h2⟩ := clockStep_inv clock start fs hashes poff st q hmono hstart hlast hdivs
    exact ih _ h1 h2

/-- **C9 (amended).** Progress-reporting safety: the final summary's
average-rate division is explicitly guarded (it is performed only with a
positive elapsed total), and every periodic throughput divisor is positive
— and progress reporting leaves the scan's findings unchanged — *provided*
the monotone clock advances by less than one progress interval between the
`last_progress_time` reading and the `start_time` reading taken two lines
later.  (Without that proviso the periodic divisor can be zero; see the
counterexample.) -/
theorem C9_progress_safety (clock : Nat → ℚ) (fs : FS) (hashes : List String)
    (fuel : Nat) (poff : Option Nat)
    (hmono : ∀ i j, i ≤ j → clock i ≤ clock j)
    (hgap : clock 1 < clock 0 + 1) :
    (search_filesystem_clock clock fs hashes fuel poff).findings =
      search_filesystem fs hashes fuel poff ∧
    (∀ d ∈ (search_filesystem_clock clock fs hashes fuel poff).periodicDivs, 0 < d) ∧
    (∀ t, (search_filesystem_clock clock fs hashes fuel poff).finalDiv = some t → 0 < t) := by
  refine ⟨?_, ?_, ?_⟩
  · have h : (search_filesystem_clock clock fs hashes fuel poff).findings =
        ((walk_fs fs fuel "/").foldl (clockStep clock (clock 1) fs hashes poff)
          ⟨[], 0, 0, clock 0, []⟩).findings := rfl
    rw [h, clock_foldl_findings]
    simp [search_filesystem]
  · have h : (search_filesystem_clock clock fs hashes fuel poff).periodicDivs =
        ((walk_fs fs fuel "/").foldl (clockStep clock (clock 1) fs hashes poff)
          ⟨[], 0, 0, clock 0, []⟩).divs := rfl
    rw [h]
    exact clock_foldl_divs clock (clock 1) fs hashes poff (walk_fs fs fuel "/")
      ⟨[], 0, 0, clock 0, []⟩ hmono hgap le_rfl (by simp)
  · intro t ht
    show 0 < t
    have hht : (if 0 < clock (2 + ((walk_fs fs fuel "/").foldl
        (clockStep clock (clock 1) fs hashes poff) ⟨[], 0, 0, clock 0, []⟩).processed) - clock 1
        then some (clock (2 + ((walk_fs fs fuel "/").foldl
          (clockStep clock (clock 1) fs hashes poff) ⟨[], 0, 0, clock 0, []⟩).processed) - clock 1)
        else none) = some t := ht
    split at hht
    · cases hht
      assumption
    · cases hht

/-- Witness for C9 (amended): a clock reading `0, 0, 1, 2, …` (both
initialization readings coincide) keeps every divisor positive on the
demo scan. -/
theorem C9_progress_safety_witness :
    (search_filesystem_clock clockW fsA [h1] 3 none).findings =
      search_filesystem fsA [h1] 3 none ∧
    (∀ d ∈ (search_filesystem_clock clockW fsA [h1] 3 none).periodicDivs, 0 < d) ∧
    (∀ t, (search_filesystem_clock clockW fsA [h1] 3 none).finalDiv = some t → 0 < t) :=
  C9_progress_safety clockW fsA [h1] 3 none
    (fun i j hij => by unfold clockW; exact_mod_cast Nat.sub_le_sub_right hij 1)
    (by norm_num [clockW])

/-- Counterexample to C9 as stated: under a *monotone* clock that advances
by one full progress interval between the `last_progress_time` reading
(line 76) and the `start_time` reading (line 78) and then stalls, the
periodic report runs with divisor exactly zero — in the source this is an
unguarded `processed_files / elapsed_time` raising `ZeroDivisionError`
inside `search_filesystem`, so progress reporting *can* make the scan
fail. -/
theorem C9_counterexample :
    (∀ i j, i ≤ j → clockCE i ≤ clockCE j) ∧
    (0 : ℚ) ∈ (search_filesystem_clock clockCE fsA [h1] 3 none).periodicDivs := by
  constructor
  · intro i j hij
    unfold clockCE
    cases i with
    | zero =>
      cases j with
      | zero => norm_num
      | succ j => norm_num
    | succ i =>
      cases j with
      | zero => omega
      | succ j => norm_num
  · have h : (search_filesystem_clock clockCE fsA [h1] 3 none).periodicDivs =
        ((walk_fs fsA 3 "/").foldl (clockStep clockCE (clockCE 1) fsA [h1] none)
          ⟨[], 0, 0, clockCE 0, []⟩).divs := rfl
    have hw : walk_fs fsA 3 "/" = ["//a.txt", "/dir/b.txt"] := by decide
    have hp1 : processFile fsA [h1] none "//a.txt" = some findA := by decide
    have hp2 : processFile fsA [h1] none "/dir/b.txt" = none := by decide
    rw [h, hw]
    simp only [List.foldl_cons, List.foldl_nil, clockStep, hp1, hp2]
    norm_num [clockCE]

/-- Splitting always yields at least one component. -/
theorem splitSlash_ne_nil : ∀ l : List Char, splitSlash l ≠ []
  | [] => by simp [splitSlash]
  | c :: rest => by
    by_cases hc : c = '/'
    · simp [splitSlash, hc]
    · simp only [splitSlash, if_neg hc]
      cases h : splitSlash rest with
      | nil => simp
      | cons comp comps => simp

/-- Splitting distributes over a separator in the middle. -/
theorem splitSlash_append_slash (a b : List Char) :
    splitSlash (a ++ '/' :: b) = splitSlash a ++ splitSlash b := by
  induction a with
  | nil => simp [splitSlash]
  | cons c a ih =>
    by_cases hc : c = '/'
    · subst hc
      simp [splitSlash, ih]
    · rw [List.cons_append]
      simp only [splitSlash, if_neg hc, ih]
      cases h : splitSlash a with
      | nil => exact absurd h (splitSlash_ne_nil a)
      | cons comp comps => simp

/-- A separator-free list is its own single component. -/
theorem splitSlash_no_slash {l : List Char} (h : '/' ∉ l) : splitSlash l = [l] := by
  induction l with
  | nil => rfl
  | cons c rest ih =>
    have hc : c ≠ '/' := fun hc => h (hc ▸ List.mem_cons_self c rest)
    have hr : '/' ∉ rest := fun hr => h (List.mem_cons_of_mem c hr)
    simp [splitSlash, hc, ih hr]

/-- Components survive the removal of leading separators. -/
theorem mem_splitSlash_dropWhile {l comp : List Char}
    (h : comp ∈ splitSlash (l.dropWhile (· = '/'))) : comp ∈ splitSlash l := by
  induction l with
  | nil => simpa using h
  | cons c rest ih =>
    by_cases hc : c = '/'
    · subst hc
      rw [List.dropWhile_cons_of_pos (by simp)] at h
      have h2 := ih h
      simp only [splitSlash, if_pos rfl]
      exact List.mem_cons_of_mem _ h2
    · rwa [List.dropWhile_cons_of_neg (by simp [hc])] at h

/-- Components survive the removal of trailing separators (reversed
form). -/
theorem mem_splitSlash_dropTrailing_rev {r comp : List Char}
    (h : comp ∈ splitSlash ((r.dropWhile (· = '/')).reverse)) :
    comp ∈ splitSlash r.reverse := by
  induction r with
  | nil => simpa using h
  | cons c r ih =>
    by_cases hc : c = '/'
    · subst hc
      rw [List.dropWhile_cons_of_pos (by simp)] at h
      have h2 := ih h
      rw [List.reverse_cons]
      have h3 : splitSlash (r.reverse ++ ['/']) = splitSlash r.reverse ++ [[]] := by
        have h4 := splitSlash_append_slash r.reverse []
        simpa [splitSlash] using h4
      rw [h3]
      exact List.mem_append_left _ h2
    · rwa [List.dropWhile_cons_of_neg (by simp [hc])] at h

/-- Components survive the removal of trailing separators. -/
theorem mem_splitSlash_dropTrailing {l comp : List Char}
    (h : comp ∈ splitSlash ((l.reverse.dropWhile (· = '/')).reverse)) :
    comp ∈ splitSlash l := by
  have h2 := @mem_splitSlash_dropTrailing_rev l.reverse comp h
  rwa [List.reverse_reverse] at h2

/-- Components survive Python `strip("/")`. -/
theorem mem_splitSlash_stripChars {l comp : List Char}
    (h : comp ∈ splitSlash (stripChars l)) : comp ∈ splitSlash l :=
  mem_splitSlash_dropWhile (mem_splitSlash_dropTrailing h)

/-- Unfolding of `splitSlash` on a cons cell. -/
theorem splitSlash_cons (c : Char) (rest : List Char) :
    splitSlash (c :: rest) =
      if c = '/' then [] :: splitSlash rest
      else
        match splitSlash rest with
        | [] => [[c]]
        | comp :: comps => (c :: comp) :: comps := rfl

/-- Unfolding of `replaceDS` on two leading characters. -/
theorem replaceDS_cons2 (c1 c2 : Char) (rest : List Char) :
    replaceDS (c1 :: c2 :: rest) =
      if c1 = '/' ∧ c2 = '/' then '/' :: replaceDS rest
      else c1 :: replaceDS (c2 :: rest) := rfl

/-- Separator deduplication preserves the first component and turns the
remaining components into a sublist (it only removes empty components). -/
theorem splitSlash_replaceDS :
    ∀ (n : Nat) (l : List Char), l.length ≤ n →
      (splitSlash (replaceDS l)).head? = (splitSlash l).head? ∧
      (splitSlash (replaceDS l)).tail.Sublist (splitSlash l).tail := by
  intro n
  induction n with
  | zero =>
    intro l hl
    rw [List.length_eq_zero.mp (Nat.le_zero.mp hl)]
    exact ⟨rfl, List.Sublist.refl _⟩
  | succ n ih =>
    intro l hl
    match l with
    | [] => exact ⟨rfl, List.Sublist.refl _⟩
    | [c] => exact ⟨rfl, List.Sublist.refl _⟩
    | c1 :: c2 :: rest =>
      simp only [List.length_cons] at hl
      rw [replaceDS_cons2]
      by_cases h12 : c1 = '/' ∧ c2 = '/'
      · obtain ⟨rfl, rfl⟩ := h12
        obtain ⟨ih1, ih2⟩ := ih rest (by omega)
        rw [if_pos ⟨rfl, rfl⟩, splitSlash_cons, if_pos rfl, splitSlash_cons, if_pos rfl,
          splitSlash_cons, if_pos rfl]
        refine ⟨rfl, ?_⟩
        simp only [List.tail_cons]
        cases hR : splitSlash rest with
        | nil => exact absurd hR (splitSlash_ne_nil rest)
        | cons y ys =>
          cases hL : splitSlash (replaceDS rest) with
          | nil => exact absurd hL (splitSlash_ne_nil (replaceDS rest))
          | cons x xs =>
            rw [hR, hL] at ih1 ih2
            simp only [List.head?_cons, Option.some.injEq] at ih1
            simp only [List.tail_cons] at ih2
            subst ih1
            exact List.Sublist.cons [] (List.Sublist.cons₂ x ih2)
      · obtain ⟨ih1, ih2⟩ := ih (c2 :: rest) (by simp only [List.length_cons]; omega)
        rw [if_neg h12]
        cases hR : splitSlash (c2 :: rest) with
        | nil => exact absurd hR (splitSlash_ne_nil _)
        | cons y ys =>
          cases hL : splitSlash (replaceDS (c2 :: rest)) with
          | nil => exact absurd hL (splitSlash_ne_nil _)
          | cons x xs =>
            rw [hR, hL] at ih1 ih2
            simp only [List.head?_cons, Option.some.injEq] at ih1
            simp only [List.tail_cons] at ih2
            subst ih1
            by_cases hc1 : c1 = '/'
            · subst hc1
              rw [splitSlash_cons, if_pos rfl, splitSlash_cons, if_pos rfl, hR, hL]
              exact ⟨rfl, List.Sublist.cons₂ x ih2⟩
            · rw [splitSlash_cons, if_neg hc1, splitSlash_cons, if_neg hc1, hR, hL]
              exact ⟨rfl, ih2⟩

/-- Every component after deduplication was a component before. -/
theorem mem_splitSlash_replaceDS {l comp : List Char}
    (h : comp ∈ splitSlash (replaceDS l)) : comp ∈ splitSlash l := by
  obtain ⟨h1, h2⟩ := splitSlash_replaceDS l.length l le_rfl
  cases hL : splitSlash (replaceDS l) with
  | nil => exact absurd hL (splitSlash_ne_nil _)
  | cons x xs =>
    cases hR : splitSlash l with
    | nil => exact absurd hR (splitSlash_ne_nil _)
    | cons y ys =>
      rw [hL, hR] at h1 h2
      simp only [List.head?_cons, Option.some.injEq] at h1
      simp only [List.tail_cons] at h2
      rw [hL] at h
      rcases List.mem_cons.mp h with rfl | hx
      · exact h1 ▸ List.mem_cons_self _ _
      · exact List.mem_cons_of_mem _ (h2.subset hx)

/-- Strings with equal character data are equal. -/
theorem stringDataInj {s t : String} (h : s.data = t.data) : s = t := by
  cases s
  cases t
  exact congrArg String.mk h

/-- A name the walk's filter lets through is not a forbidden component. -/
theorem badComp_of_not_skip {name : String} (hskip : skipName name = false) :
    badComp name.data = false := by
  simp only [skipName, Bool.or_eq_false_iff] at hskip
  obtain ⟨⟨hdot, hdots⟩, hdollar⟩ := hskip
  simp only [badComp, Bool.or_eq_false_iff]
  refine ⟨⟨?_, ?_⟩, ?_⟩
  · rw [beq_eq_false_iff_ne]
    intro hd
    exact beq_eq_false_iff_ne.mp hdot (stringDataInj (hd.trans rfl))
  · rw [beq_eq_false_iff_ne]
    intro hd
    exact beq_eq_false_iff_ne.mp hdots (stringDataInj (hd.trans rfl))
  · exact hdollar

/-- The path the walk builds for an unfiltered, separator-free name is
clean whenever the parent path is. -/
theorem cleanStr_child {path name : String} (hclean : cleanStr path)
    (hname : '/' ∉ name.data) (hskip : skipName name = false) :
    cleanStr ("/" ++ childPath path name) := by
  intro comp hcomp
  have hdata : ("/" ++ childPath path name).data =
      '/' :: replaceDS (stripChars path.data ++ '/' :: name.data) := rfl
  rw [hdata, splitSlash_cons, if_pos rfl] at hcomp
  rcases List.mem_cons.mp hcomp with rfl | hcomp
  · rfl
  · have h2 := mem_splitSlash_replaceDS hcomp
    rw [splitSlash_append_slash] at h2
    rcases List.mem_append.mp h2 with h3 | h3
    · exact hclean comp (mem_splitSlash_stripChars h3)
    · rw [splitSlash_no_slash hname] at h3
      obtain rfl := List.mem_singleton.mp h3
      exact badComp_of_not_skip hskip

/-- Every path yielded by the walk from a clean starting path is clean,
when directory entry names contain no separator. -/
theorem walk_fs_clean (fs : FS) (hnames : NoSlashNames fs) :
    ∀ fuel path, cleanStr path → ∀ p ∈ walk_fs fs fuel path, cleanStr p := by
  intro fuel
  induction fuel with
  | zero =>
    intro path hc p hp
    cases hp
  | succ fuel ih =>
    intro path hc p hp
    rw [walk_fs_succ] at hp
    cases hd : fs.dirs path with
    | none => rw [hd] at hp; cases hp
    | some entries =>
      rw [hd] at hp
      obtain ⟨e, he, hpe⟩ := List.mem_flatMap.mp hp
      cases hn : e.name with
      | none =>
        simp only [walkStep, hn] at hpe
        cases hpe
      | some name =>
        have hns : '/' ∉ name.data := hnames path entries hd e he name hn
        simp only [walkStep, hn] at hpe
        by_cases hskip : skipName name = true
        · rw [if_pos hskip] at hpe
          cases hpe
        · have hskipf : skipName name = false := by
            cases hsn : skipName name
            · rfl
            · exact absurd hsn hskip
          rw [if_neg hskip] at hpe
          have hchild := cleanStr_child hc hns hskipf
          by_cases hdir : entryIsDir e = true
          · rw [if_pos hdir] at hpe
            exact ih ("/" ++ childPath path name) hchild p hpe
          · rw [if_neg hdir] at hpe
            obtain rfl := List.mem_singleton.mp hpe
            exact hchild

/-- Unfolding of the open trace at positive fuel. -/
theorem walk_fs_opens_succ (fs : FS) (fuel : Nat) (path : String) :
    walk_fs_opens fs (fuel + 1) path =
      path :: (match fs.dirs path with
        | none => []
        | some entries => entries.flatMap (opensStep fs fuel path)) := rfl

/-- Every path on which the walk attempts a directory open is clean, from
a clean starting path. -/
theorem walk_fs_opens_clean (fs : FS) (hnames : NoSlashNames fs) :
    ∀ fuel path, cleanStr path → ∀ p ∈ walk_fs_opens fs fuel path, cleanStr p := by
  intro fuel
  induction fuel with
  | zero =>
    intro path hc p hp
    cases hp
  | succ fuel ih =>
    intro path hc p hp
    rw [walk_fs_opens_succ] at hp
    rcases List.mem_cons.mp hp with rfl | hp
    · exact hc
    · cases hd : fs.dirs path with
      | none => rw [hd] at hp; cases hp
      | some entries =>
        rw [hd] at hp
        obtain ⟨e, he, hpe⟩ := List.mem_flatMap.mp hp
        cases hn : e.name with
        | none =>
          simp only [opensStep, hn] at hpe
          cases hpe
        | some name =>
          have hns : '/' ∉ name.data := hnames path entries hd e he name hn
          simp only [opensStep, hn] at hpe
          by_cases hskip : skipName name = true
          · rw [if_pos hskip] at hpe
            cases hpe
          · have hskipf : skipName name = false := by
              cases hsn : skipName name
              · rfl
              · exact absurd hsn hskip
            rw [if_neg hskip] at hpe
            by_cases hdir : entryIsDir e = true
            · rw [if_pos hdir] at hpe
              exact ih ("/" ++ childPath path name) (cleanStr_child hc hns hskipf) p hpe
            · rw [if_neg hdir] at hpe
              cases hpe

/-- **C3.** Traversal filtering invariant: for every filesystem (whose
entry names, being single directory-entry names, contain no separator)
and every clean starting path, no `/`-separated component of any path
yielded by `walk_fs`, of any path it attempts to open as a directory, or
of any returned Finding's `file_path`, is `.`, `..`, or a name beginning
with the `$` internal-metadata marker — such entries are neither yielded
nor recursed into. -/
theorem C3_traversal_filtering (fs : FS) (hashes : List String) (fuel : Nat)
    (poff : Option Nat) (path : String)
    (hnames : NoSlashNames fs) (hclean : cleanStr path) :
    (∀ p ∈ walk_fs fs fuel path, cleanStr p) ∧
    (∀ p ∈ walk_fs_opens fs fuel path, cleanStr p) ∧
    (∀ f ∈ search_filesystem fs hashes fuel poff, cleanStr f.file_path) := by
  refine ⟨walk_fs_clean fs hnames fuel path hclean,
          walk_fs_opens_clean fs hnames fuel path hclean, ?_⟩
  intro f hf
  have hw := (mem_search_filesystem hf).2.2.1
  exact walk_fs_clean fs hnames fuel "/" (by decide) f.file_path hw

/-- The demo filesystem's entry names contain no separator. -/
theorem fsA_noSlashNames : NoSlashNames fsA := by
  intro path entries hd e he n hn
  simp only [fsA] at hd
  by_cases hp1 : path = "/"
  · rw [if_pos hp1] at hd
    obtain rfl := Option.some.inj hd
    simp only [rootEntriesA, List.mem_cons, List.not_mem_nil, or_false] at he
    rcases he with rfl | rfl | rfl <;> (obtain rfl := Option.some.inj hn; decide)
  · rw [if_neg hp1] at hd
    by_cases hp2 : path = "//dir"
    · rw [if_pos hp2] at hd
      obtain rfl := Option.some.inj hd
      simp only [List.mem_cons, List.not_mem_nil, or_false] at he
      obtain rfl := he
      obtain rfl := Option.some.inj hn
      decide
    · rw [if_neg hp2] at hd
      cases hd

/-- Witness for C3 at the demo filesystem from the root. -/
theorem C3_traversal_filtering_witness :
    (∀ p ∈ walk_fs fsA 3 "/", cleanStr p) ∧
    (∀ p ∈ walk_fs_opens fsA 3 "/", cleanStr p) ∧
    (∀ f ∈ search_filesystem fsA [h1] 3 none, cleanStr f.file_path) :=
  C3_traversal_filtering fsA [h1] 3 none "/" fsA_noSlashNames (by decide)

end HashHound
